import Mathlib

/-!
Verification of `mcl_orthologues.ipynb` (Comparative Genomics, Part 2).

The notebook has three stages:
* `read_mcl` with a reader-side `split_seqid` (`seqid.split('|')[-2]`);
* `read_genbank`, building a dict `protein_id -> (record_name, start, end, strand)`;
* `write_crunch` with a writer-side `split_seqid`
  (`seqid.split('|')[-1].split('.')[0]`), `itertools.combinations`, pair
  sorting, a `defaultdict(set)` keyed by `"A_vs_B"`, and crunch-line output.

Python strings are modelled as Lean `String`; string primitives that the
notebook relies on (`str.split(sep)`, `str.split()`, `str.strip()`, `<` on
strings, `" ".join`) are defined below over `List Char` with the Python
semantics.  Python `dict` is an insertion-ordered association list with
overwrite-on-assignment; `KeyError`/`IndexError` become `Option.none`.
-/

/-- Python `s.split(sep)` for a one-character separator, over a predicate:
splits at every character satisfying `p`, keeping empty pieces. -/
def splitOnP (p : Char → Bool) : List Char → List (List Char)
  | [] => [[]]
  | c :: cs =>
    if p c then [] :: splitOnP p cs
    else match splitOnP p cs with
      | [] => [[c]]
      | t :: ts => (c :: t) :: ts

/-- Python `s.split(sep)` for a one-character separator string. -/
def splitOnChar (sep : Char) (s : List Char) : List (List Char) :=
  splitOnP (fun c => c = sep) s

/-- Python `s.strip()`: drop leading and trailing whitespace. -/
def pystrip (s : List Char) : List Char :=
  ((s.dropWhile Char.isWhitespace).reverse.dropWhile Char.isWhitespace).reverse

/-- Python `s.split()` (no argument): split on whitespace runs, no empty
pieces. -/
def pysplit_ws (s : List Char) : List String :=
  ((splitOnP Char.isWhitespace s).filter (fun t => ¬ t.isEmpty)).map String.mk

/-- Python `<` on strings: lexicographic comparison by code point. -/
def strLtB : List Char → List Char → Bool
  | [], [] => false
  | [], _ :: _ => true
  | _ :: _, [] => false
  | a :: as, b :: bs => if a < b then true else if b < a then false else strLtB as bs

/-- Python `" ".join(fields)`. -/
def joinSpace : List String → String
  | [] => ""
  | [x] => x
  | x :: xs => x ++ " " ++ joinSpace xs

/-- Mapping a fallible function over a list, failing as soon as one element
fails — the effect of an uncaught Python exception inside a comprehension. -/
def mapMO (f : α → Option β) : List α → Option (List β)
  | [] => some []
  | x :: xs =>
    match f x, mapMO f xs with
    | some y, some ys => some (y :: ys)
    | _, _ => none

/-- Folding a fallible step over a list, failing as soon as one step fails —
the effect of an uncaught Python exception inside a loop. -/
def foldMO (f : σ → α → Option σ) : σ → List α → Option σ
  | s, [] => some s
  | s, x :: xs =>
    match f s x with
    | some t => foldMO f t xs
    | none => none

/-- Reader-side `split_seqid` (first notebook definition):
`seqid.split('|')[-2]`.  Python raises `IndexError` when the split has fewer
than two pieces; modelled as `none`. -/
def split_seqid (seqid : String) : Option String :=
  let parts := splitOnChar '|' seqid.data
  if h : 2 ≤ parts.length then
    some (String.mk (parts.get ⟨parts.length - 2, by omega⟩))
  else none

/-- Model of `read_mcl`: keep non-empty lines (`len(l.strip())` truthy), split each on
whitespace, and normalize every token with the reader-side `split_seqid`.
The file is modelled as its list of lines. -/
def read_mcl (lines : List String) : Option (List (List String)) :=
  mapMO (fun l => mapMO split_seqid (pysplit_ws (pystrip l.data)))
    (lines.filter (fun l => !(pystrip l.data).isEmpty))

/-- The notebook cell `clusters = [c for c in all_clusters if len(c) > 1]`:
drop singleton clusters. -/
def filter_singletons (all_clusters : List (List String)) : List (List String) :=
  all_clusters.filter (fun c => 1 < c.length)

/-- A feature value as stored by `read_genbank`:
`(record_name, start, end, strand)`. -/
abbrev Feature := String × Int × Int × Int

/-- A GenBank CDS-relevant feature as surfaced by the external parser
(Biopython `SeqIO`): its type, `protein_id` qualifier, and location. -/
structure GBFeature where
  ftype : String
  protein_id : String
  fstart : Int
  fend : Int
  strand : Int
deriving DecidableEq

/-- A parsed GenBank record as surfaced by the external parser: the `gi`
annotation, the record id (accession), and the feature table. -/
structure GBRecord where
  gi : String
  rid : String
  features : List GBFeature
deriving DecidableEq

/-- Reconstruction of the source name: the strings gi, the gi annotation,
ref, and the record id, joined with bar separators. -/
def record_name (r : GBRecord) : String :=
  "gi|" ++ r.gi ++ "|ref|" ++ r.rid

/-- Python dict assignment `d[k] = v`: overwrite in place, else append. -/
def ftInsert (d : List (String × Feature)) (k : String) (v : Feature) :
    List (String × Feature) :=
  match d with
  | [] => [(k, v)]
  | (k', v') :: rest =>
    if k' = k then (k, v) :: rest else (k', v') :: ftInsert rest k v

/-- Python dict lookup `d[k]`, with `KeyError` modelled as `none`. -/
def dlookup (d : List (String × Feature)) (key : String) : Option Feature :=
  match d with
  | [] => none
  | (k, v) :: rest => if k = key then some v else dlookup rest key

/-- The body of `read_genbank` for one file: filter the features of the record to
`type == "CDS"` and assign
`ft_dict[protein_id] = (record_name, start, end, strand)` for each. -/
def procRecord (d : List (String × Feature)) (r : GBRecord) :
    List (String × Feature) :=
  (r.features.filter (fun f => f.ftype = "CDS")).foldl
    (fun d ft => ftInsert d ft.protein_id (record_name r, ft.fstart, ft.fend, ft.strand)) d

/-- Model of `read_genbank(*filenames)`: each file yields one parsed record; the dict
accumulates over the files in order. -/
def read_genbank (records : List GBRecord) : List (String × Feature) :=
  records.foldl procRecord []

/-- The last feature with the given `protein_id` in a feature list (the one
whose dict assignment survives). -/
def lastWith (p : String) : List GBFeature → Option GBFeature
  | [] => none
  | f :: fs =>
    match lastWith p fs with
    | some g => some g
    | none => if f.protein_id = p then some f else none

/-- The last `CDS` feature with the given `protein_id` in the feature table
of a record. -/
def lastCDS (p : String) (fts : List GBFeature) : Option GBFeature :=
  lastWith p (fts.filter (fun f => f.ftype = "CDS"))

/-- The surviving binding for a protein id across a record list: the last
record containing it as a CDS, together with the last such CDS inside that
record — the assignment that wins in the accumulated dict. -/
def lastEntry (p : String) : List GBRecord → Option (GBRecord × GBFeature)
  | [] => none
  | r :: rs =>
    match lastEntry p rs with
    | some e => some e
    | none =>
      match lastCDS p r.features with
      | some ft => some (r, ft)
      | none => none

/-- Python `l[-1]` on a list known to be non-empty (`split` never returns an
empty list); the default is unreachable there. -/
def pylast {α : Type} (d : α) : List α → α
  | [] => d
  | [t] => t
  | _ :: t :: ts => pylast d (t :: ts)

/-- Python `l[0]` on a list known to be non-empty. -/
def pyhead {α : Type} (d : α) : List α → α
  | [] => d
  | t :: _ => t

/-- Writer-side `split_seqid` (redefined before `write_crunch`):
`seqid.split('|')[-1].split('.')[0]`. -/
def split_seqid_w (seqid : String) : String :=
  String.mk (pyhead [] (splitOnChar '.' (pylast [] (splitOnChar '|' seqid.data))))

/-- Python `<` on `Feature` tuples: lexicographic on
(source name, start, end, strand), strings by code point. -/
def ftLt (a b : Feature) : Bool :=
  strLtB a.1.data b.1.data ||
  (decide (a.1 = b.1) && (decide (a.2.1 < b.2.1) ||
    (decide (a.2.1 = b.2.1) && (decide (a.2.2.1 < b.2.2.1) ||
      (decide (a.2.2.1 = b.2.2.1) && decide (a.2.2.2 < b.2.2.2))))))

/-- Model of `ft1, ft2 = sorted([features[pair[0]], features[pair[1]]])`: the
Python stable sort of a two-element list swaps exactly when the second is `<` the
first. -/
def sorted_pair (f1 f2 : Feature) : Feature × Feature :=
  if ftLt f2 f1 then (f2, f1) else (f1, f2)

/-- Model of `itertools.combinations(cluster, 2)`: ordered positions, each earlier
member paired with each later member. -/
def combinations2 : List α → List (α × α)
  | [] => []
  | x :: xs => xs.map (fun y => (x, y)) ++ combinations2 xs

/-- The `defaultdict(set)` of `write_crunch`: insertion-ordered keys, each
holding the set of inserted pairs (duplicate insertions ignored). -/
abbrev PairsDict := List (String × List (Feature × Feature))

/-- Model of `pairs_dict[key].add((ft1, ft2))` on a `defaultdict(set)`. -/
def dictAdd (d : PairsDict) (k : String) (p : Feature × Feature) : PairsDict :=
  match d with
  | [] => [(k, [p])]
  | (k', ps) :: rest =>
    if k' = k then (k', if p ∈ ps then ps else ps ++ [p]) :: rest
    else (k', ps) :: dictAdd rest k p

/-- The body of the inner loop of `write_crunch` for one member pair: look up both
features (`KeyError` aborts), sort them, derive the `"A_vs_B"` key from the
writer-side `split_seqid` of their source names, and add the sorted pair. -/
def processPair (features : List (String × Feature)) (d : PairsDict)
    (pair : String × String) : Option PairsDict :=
  match dlookup features pair.1, dlookup features pair.2 with
  | some f1, some f2 =>
    let fts := sorted_pair f1 f2
    let source1 := split_seqid_w fts.1.1
    let source2 := split_seqid_w fts.2.1
    some (dictAdd d (source1 ++ "_vs_" ++ source2) fts)
  | _, _ => none

/-- The two coordinate fields one feature contributes to a crunch line:
`str(ft[2]) if ft[3] < 0 else str(ft[1])` then
`str(ft[1]) if ft[3] < 0 else str(ft[2])`. -/
def coordFields (ft : Feature) : List String :=
  [if ft.2.2.2 < 0 then toString ft.2.2.1 else toString ft.2.1,
   if ft.2.2.2 < 0 then toString ft.2.1 else toString ft.2.2.1]

/-- One output line of `write_crunch`, before the `" ".join`: score and
identity are the literals `"100"`; each feature contributes start, end
(swapped when its strand is negative) and its full source name. -/
def crunchFields (ft1 ft2 : Feature) : List String :=
  ["100", "100"] ++ coordFields ft1 ++ [ft1.1] ++ coordFields ft2 ++ [ft2.1]

/-- Model of one `fh.write` call: the joined fields plus a newline. -/
def crunchLine (ft1 ft2 : Feature) : String :=
  joinSpace (crunchFields ft1 ft2) ++ "\n"

/-- Model of `write_crunch(clusters, features)`: accumulate every pairwise combination
of every cluster into the pairs dict (an absent feature key aborts the run),
then emit one file `<key>.crunch` per group, one crunch line per stored pair.
The result is the list of written files as (file name, written lines); the
output directory joined by `os.path.join` is elided. -/
def write_crunch (clusters : List (List String))
    (features : List (String × Feature)) : Option (List (String × List String)) :=
  match foldMO (fun d cluster => foldMO (processPair features) d (combinations2 cluster))
      [] clusters with
  | some d =>
    some (d.map (fun kv => (kv.1 ++ ".crunch", kv.2.map (fun p => crunchLine p.1 p.2))))
  | none => none

/-! ### Lemmas about the string primitives -/

theorem splitOnP_ne_nil (p : Char → Bool) (s : List Char) : splitOnP p s ≠ [] := by
  induction s with
  | nil => simp [splitOnP]
  | cons c cs ih =>
    simp only [splitOnP]
    split
    · simp
    · rcases h : splitOnP p cs with _ | ⟨t, ts⟩
      · exact absurd h ih
      · simp [h]

theorem not_p_of_mem_splitOnP (p : Char → Bool) :
    ∀ (s : List Char) (t : List Char), t ∈ splitOnP p s → ∀ c ∈ t, p c = false := by
  intro s
  induction s with
  | nil =>
    intro t ht c hc
    simp [splitOnP] at ht
    subst ht
    simp at hc
  | cons a as ih =>
    intro t ht c hc
    by_cases hpa : p a = true
    · simp only [splitOnP, hpa, if_true] at ht
      rcases List.mem_cons.mp ht with rfl | ht'
      · simp at hc
      · exact ih t ht' c hc
    · rw [Bool.not_eq_true] at hpa
      rcases h : splitOnP p as with _ | ⟨u, us⟩
      · exact absurd h (splitOnP_ne_nil p as)
      · simp only [splitOnP, hpa, Bool.false_eq_true, if_false, h] at ht
        rcases List.mem_cons.mp ht with rfl | ht'
        · rcases List.mem_cons.mp hc with rfl | hc'
          · exact hpa
          · exact ih u (by simp [h]) c hc'
        · exact ih t (by simp [h, ht']) c hc

theorem mem_of_mem_splitOnP (p : Char → Bool) :
    ∀ (s : List Char) (t : List Char), t ∈ splitOnP p s → ∀ c ∈ t, c ∈ s := by
  intro s
  induction s with
  | nil =>
    intro t ht c hc
    simp [splitOnP] at ht
    subst ht
    simp at hc
  | cons a as ih =>
    intro t ht c hc
    by_cases hpa : p a = true
    · simp only [splitOnP, hpa, if_true] at ht
      rcases List.mem_cons.mp ht with rfl | ht'
      · simp at hc
      · exact List.mem_cons_of_mem a (ih t ht' c hc)
    · rw [Bool.not_eq_true] at hpa
      rcases h : splitOnP p as with _ | ⟨u, us⟩
      · exact absurd h (splitOnP_ne_nil p as)
      · simp only [splitOnP, hpa, Bool.false_eq_true, if_false, h] at ht
        rcases List.mem_cons.mp ht with rfl | ht'
        · rcases List.mem_cons.mp hc with rfl | hc'
          · exact List.mem_cons_self c as
          · exact List.mem_cons_of_mem a (ih u (by simp [h]) c hc')
        · exact List.mem_cons_of_mem a (ih t (by simp [h, ht']) c hc)

theorem splitOnP_eq_single (p : Char → Bool) :
    ∀ s : List Char, (∀ c ∈ s, p c = false) → splitOnP p s = [s] := by
  intro s
  induction s with
  | nil => intro _; rfl
  | cons a as ih =>
    intro h
    have ha : p a = false := h a (List.mem_cons_self a as)
    have has : ∀ c ∈ as, p c = false := fun c hc => h c (List.mem_cons_of_mem a hc)
    simp only [splitOnP, ha]
    rw [ih has]
    simp

theorem splitOnP_length_ge_two (p : Char → Bool) :
    ∀ s : List Char, (∃ c ∈ s, p c = true) → 2 ≤ (splitOnP p s).length := by
  intro s
  induction s with
  | nil => rintro ⟨c, hc, _⟩; simp at hc
  | cons a as ih =>
    rintro ⟨c, hc, hpc⟩
    by_cases hpa : p a = true
    · have h1 : 0 < (splitOnP p as).length := List.length_pos.mpr (splitOnP_ne_nil p as)
      simp only [splitOnP, hpa, if_true, List.length_cons]
      omega
    · rw [Bool.not_eq_true] at hpa
      have hc' : c ∈ as := by
        rcases List.mem_cons.mp hc with rfl | h
        · rw [hpc] at hpa; cases hpa
        · exact h
      have h2 := ih ⟨c, hc', hpc⟩
      rcases h : splitOnP p as with _ | ⟨u, us⟩
      · exact absurd h (splitOnP_ne_nil p as)
      · rw [h] at h2
        simp only [splitOnP, hpa, Bool.false_eq_true, if_false, h, List.length_cons] at h2 ⊢
        simpa using h2

theorem pylast_mem {α : Type} (d : α) : ∀ l : List α, l ≠ [] → pylast d l ∈ l
  | [], h => absurd rfl h
  | [t], _ => by simp [pylast]
  | a :: t :: ts, _ => by
    have := pylast_mem d (t :: ts) (by simp)
    simp only [pylast]
    exact List.mem_cons_of_mem a this

theorem pyhead_mem {α : Type} (d : α) : ∀ l : List α, l ≠ [] → pyhead d l ∈ l
  | [], h => absurd rfl h
  | t :: ts, _ => by simp [pyhead]

theorem mapMO_eq_some_iff_forall2 (f : α → Option β) :
    ∀ (l : List α) (l' : List β),
      mapMO f l = some l' ↔ List.Forall₂ (fun a b => f a = some b) l l' := by
  intro l
  induction l with
  | nil =>
    intro l'
    constructor
    · intro h
      simp [mapMO] at h
      subst h
      exact List.Forall₂.nil
    · intro h
      cases h
      rfl
  | cons a as ih =>
    intro l'
    constructor
    · intro h
      simp only [mapMO] at h
      rcases hfa : f a with _ | b
      · rw [hfa] at h; simp at h
      · rcases hrest : mapMO f as with _ | bs
        · rw [hfa, hrest] at h; simp at h
        · rw [hfa, hrest] at h
          simp at h
          subst h
          exact List.Forall₂.cons hfa ((ih bs).mp hrest)
    · intro h
      cases h with
      | cons hab hrest =>
        simp only [mapMO, hab, (ih _).mpr hrest]

theorem mapMO_isSome_iff (f : α → Option β) :
    ∀ l : List α, (mapMO f l).isSome = true ↔ ∀ a ∈ l, (f a).isSome = true := by
  intro l
  induction l with
  | nil => simp [mapMO]
  | cons a as ih =>
    simp only [mapMO]
    rcases hfa : f a with _ | b
    · simp [hfa]
    · rcases hrest : mapMO f as with _ | bs
      · rw [hrest] at ih
        simp only [Option.isSome_none, Bool.false_eq_true, false_iff] at ih
        push_neg at ih
        simp only [Option.isSome_none, Bool.false_eq_true, false_iff]
        push_neg
        obtain ⟨x, hx, hfx⟩ := ih
        exact ⟨x, List.mem_cons_of_mem a hx, hfx⟩
      · rw [hrest] at ih
        simp only [Option.isSome_some, true_iff] at ih
        simp only [Option.isSome_some, true_iff]
        intro x hx
        rcases List.mem_cons.mp hx with rfl | hx'
        · simp [hfa]
        · exact ih x hx'

/-! ### Characterisation of the two `split_seqid` variants -/

theorem splitOnChar_eq_single (sep : Char) (s : List Char) (h : sep ∉ s) :
    splitOnChar sep s = [s] :=
  splitOnP_eq_single _ s (fun _ hc => decide_eq_false (fun he => h (he ▸ hc)))

theorem split_seqid_isSome_iff (s : String) :
    (split_seqid s).isSome = true ↔ 2 ≤ (splitOnChar '|' s.data).length := by
  simp only [split_seqid]
  split
  · simpa using ‹2 ≤ (splitOnChar '|' s.data).length›
  · simpa using ‹¬ 2 ≤ (splitOnChar '|' s.data).length›

theorem split_seqid_eq_none_of_no_bar (s : String) (h : '|' ∉ s.data) :
    split_seqid s = none := by
  have h1 := split_seqid_isSome_iff s
  rw [splitOnChar_eq_single '|' s.data h] at h1
  rcases hs : split_seqid s with _ | v
  · rfl
  · rw [hs] at h1
    simp at h1

theorem split_seqid_isSome_of_bar (s : String) (h : '|' ∈ s.data) :
    (split_seqid s).isSome = true :=
  (split_seqid_isSome_iff s).mpr
    (splitOnP_length_ge_two _ _ ⟨'|', h, by simp⟩)

theorem split_seqid_w_no_bar_no_dot (s : String) :
    '|' ∉ (split_seqid_w s).data ∧ '.' ∉ (split_seqid_w s).data := by
  have hlast : pylast [] (splitOnChar '|' s.data) ∈ splitOnChar '|' s.data :=
    pylast_mem [] _ (splitOnP_ne_nil _ _)
  have hres : pyhead [] (splitOnChar '.' (pylast [] (splitOnChar '|' s.data))) ∈
      splitOnChar '.' (pylast [] (splitOnChar '|' s.data)) :=
    pyhead_mem [] _ (splitOnP_ne_nil _ _)
  constructor
  · intro hbar
    have hmem : '|' ∈ pylast [] (splitOnChar '|' s.data) :=
      mem_of_mem_splitOnP _ _ _ hres '|' hbar
    have := not_p_of_mem_splitOnP _ _ _ hlast '|' hmem
    simp at this
  · intro hdot
    have := not_p_of_mem_splitOnP _ _ _ hres '.' hdot
    simp at this

/-- C8. The writer-side `split_seqid` (`seqid.split('|')[-1].split('.')[0]`) is
idempotent: its output contains neither `|` nor `.`, so normalizing an already
normalized identifier returns it unchanged; in particular the last `|`-segment
of `"A|B"` is `"B"`, which maps to itself. -/
theorem split_seqid_w_idempotent :
    (∀ s : String, split_seqid_w (split_seqid_w s) = split_seqid_w s) ∧
    split_seqid_w "A|B" = "B" := by
  constructor
  · intro s
    obtain ⟨h1, h2⟩ := split_seqid_w_no_bar_no_dot s
    show String.mk
        (pyhead [] (splitOnChar '.' (pylast [] (splitOnChar '|' (split_seqid_w s).data)))) =
      split_seqid_w s
    rw [splitOnChar_eq_single '|' _ h1]
    show String.mk (pyhead [] (splitOnChar '.' (split_seqid_w s).data)) = split_seqid_w s
    rw [splitOnChar_eq_single '.' _ h2]
    rfl
  · decide

/-- Closed witness for C8: the idempotence theorem applied at a concrete
composite identifier. -/
theorem split_seqid_w_idempotent_witness :
    split_seqid_w (split_seqid_w "gi|49175990|ref|NC_000913.3") = "NC_000913" :=
  (split_seqid_w_idempotent.1 "gi|49175990|ref|NC_000913.3").trans (by decide)

theorem mapMO_eq_none (f : α → Option β) (l : List α) (a : α) (ha : a ∈ l)
    (hfa : f a = none) : mapMO f l = none := by
  rcases h : mapMO f l with _ | l'
  · rfl
  · have := (mapMO_isSome_iff f l).mp (by rw [h]; rfl) a ha
    rw [hfa] at this
    cases this

/-- C9. The reader-side `split_seqid` indexes `split('|')[-2]`, so `read_mcl`
is total exactly on inputs whose tokens all contain a `|`: a token without `|`
makes `split_seqid` raise (modelled `none`) and aborts `read_mcl`, while under
the all-tokens-have-`|` precondition the error branch is unreachable. -/
theorem read_mcl_totality :
    (∀ s : String, '|' ∉ s.data → split_seqid s = none) ∧
    (∀ lines : List String,
      (∀ l ∈ lines, ∀ t ∈ pysplit_ws (pystrip l.data), '|' ∈ t.data) →
        (read_mcl lines).isSome = true) ∧
    (∀ lines : List String, ∀ l ∈ lines, (pystrip l.data).isEmpty = false →
      (∃ t ∈ pysplit_ws (pystrip l.data), '|' ∉ t.data) → read_mcl lines = none) := by
  refine ⟨split_seqid_eq_none_of_no_bar, ?_, ?_⟩
  · intro lines h
    rw [read_mcl, mapMO_isSome_iff]
    intro l hl
    rw [mapMO_isSome_iff]
    intro t ht
    exact split_seqid_isSome_of_bar t
      (h l (List.mem_of_mem_filter hl) t ht)
  · rintro lines l hl hne ⟨t, ht, hbar⟩
    have hlf : l ∈ lines.filter (fun l => !(pystrip l.data).isEmpty) :=
      List.mem_filter.mpr ⟨hl, by simp [hne]⟩
    exact mapMO_eq_none _ _ l hlf
      (mapMO_eq_none _ _ t ht (split_seqid_eq_none_of_no_bar t hbar))

/-- Closed witness for C9: a bar-less token fails, an all-barred file reads
successfully, and one bar-less token aborts the whole read. -/
theorem read_mcl_totality_witness :
    split_seqid "ab" = none ∧ (read_mcl ["a|b|c"]).isSome = true ∧
      read_mcl ["x|y|\tab"] = none :=
  ⟨read_mcl_totality.1 "ab" (by decide),
   read_mcl_totality.2.1 ["a|b|c"] (by decide),
   read_mcl_totality.2.2 ["x|y|\tab"] "x|y|\tab" (by decide) (by decide)
     ⟨"ab", by decide, by decide⟩⟩

/-- C6. A successful `read_mcl` returns one cluster per non-empty line, in
file order, each cluster being the whitespace tokens of that line normalized by the
reader-side `split_seqid` (second-to-last `|`-segment); the writer-side
variant instead takes the last `|`-segment and strips a trailing `.version`. -/
theorem read_mcl_shape :
    (∀ (lines : List String) (cs : List (List String)),
      read_mcl lines = some cs →
        cs.length = (lines.filter (fun l => !(pystrip l.data).isEmpty)).length ∧
        List.Forall₂ (fun l c => mapMO split_seqid (pysplit_ws (pystrip l.data)) = some c)
          (lines.filter (fun l => !(pystrip l.data).isEmpty)) cs) ∧
    split_seqid "gi|188535157|ref|YP_001908954.1|" = some "YP_001908954.1" ∧
    split_seqid_w "gi|188535157|ref|NC_004547.2" = "NC_004547" := by
  refine ⟨?_, by decide, by decide⟩
  intro lines cs h
  rw [read_mcl] at h
  have h2 := (mapMO_eq_some_iff_forall2 _ _ _).mp h
  exact ⟨(List.Forall₂.length_eq h2).symm, h2⟩

/-- Closed witness for C6: the shape theorem applied to a concrete two-line
file with an interspersed blank line. -/
theorem read_mcl_shape_witness :
    ([["b"], ["q", "y"]] : List (List String)).length =
      ((["a|b|", "   ", "p|q|ced\tx|y|"] : List String).filter
        (fun l => !(pystrip l.data).isEmpty)).length :=
  (read_mcl_shape.1 ["a|b|", "   ", "p|q|ced\tx|y|"] [["b"], ["q", "y"]] (by decide)).1


example : split_seqid_w "gi|188535157|ref|NC_004547.2" = "NC_004547" := by decide

/-! ### The order used by `sorted([ft1, ft2])` -/

theorem strLtB_irrefl : ∀ s : List Char, strLtB s s = false := by
  intro s
  induction s with
  | nil => rfl
  | cons a as ih => simp only [strLtB, lt_irrefl, if_false, ih]

theorem strLtB_asymm (s : List Char) :
    ∀ t : List Char, strLtB s t = true → strLtB t s = false := by
  induction s with
  | nil =>
    intro t h
    cases t with
    | nil => cases h
    | cons b bs => rfl
  | cons a as ih =>
    intro t h
    cases t with
    | nil => cases h
    | cons b bs =>
      simp only [strLtB] at h ⊢
      by_cases hab : a < b
      · rw [if_neg (lt_asymm hab), if_pos hab]
      · by_cases hba : b < a
        · rw [if_neg hab, if_pos hba] at h
          cases h
        · rw [if_neg hab, if_neg hba] at h
          rw [if_neg hba, if_neg hab]
          exact ih bs h

theorem strLtB_conn (s : List Char) :
    ∀ t : List Char, strLtB s t = false → strLtB t s = false → s = t := by
  induction s with
  | nil =>
    intro t h1 _
    cases t with
    | nil => rfl
    | cons b bs => cases h1
  | cons a as ih =>
    intro t h1 h2
    cases t with
    | nil => cases h2
    | cons b bs =>
      simp only [strLtB] at h1 h2
      by_cases hab : a < b
      · rw [if_pos hab] at h1
        cases h1
      · by_cases hba : b < a
        · rw [if_pos hba] at h2
          cases h2
        · rw [if_neg hab, if_neg hba] at h1
          rw [if_neg hba, if_neg hab] at h2
          have hc : a = b := le_antisymm (not_lt.mp hba) (not_lt.mp hab)
          rw [hc, ih bs h1 h2]

theorem strLtB_conn_str (s t : String) (h1 : strLtB s.data t.data = false)
    (h2 : strLtB t.data s.data = false) : s = t := by
  cases s
  cases t
  exact congrArg String.mk (strLtB_conn _ _ h1 h2)

theorem ftLt_eq_true_iff (a b : Feature) :
    ftLt a b = true ↔
      (strLtB a.1.data b.1.data = true ∨ (a.1 = b.1 ∧
        (a.2.1 < b.2.1 ∨ (a.2.1 = b.2.1 ∧
          (a.2.2.1 < b.2.2.1 ∨ (a.2.2.1 = b.2.2.1 ∧ a.2.2.2 < b.2.2.2)))))) := by
  simp [ftLt]

theorem ftLt_conn (a b : Feature) (h1 : ftLt a b = false) (h2 : ftLt b a = false) :
    a = b := by
  have n1 : ¬ ftLt a b = true := by simp [h1]
  have n2 : ¬ ftLt b a = true := by simp [h2]
  rw [ftLt_eq_true_iff] at n1 n2
  push_neg at n1 n2
  obtain ⟨s1, x1, y1, z1⟩ := a
  obtain ⟨s2, x2, y2, z2⟩ := b
  simp only at n1 n2
  have hs : s1 = s2 :=
    strLtB_conn_str s1 s2 (Bool.not_eq_true _ ▸ n1.1) (Bool.not_eq_true _ ▸ n2.1)
  subst hs
  have m1 := n1.2 rfl
  have m2 := n2.2 rfl
  push_neg at m1 m2
  simp only [Prod.mk.injEq, true_and]
  omega

theorem ftLt_asymm (a b : Feature) (h : ftLt a b = true) : ftLt b a = false := by
  by_contra hc
  rw [Bool.not_eq_false] at hc
  rw [ftLt_eq_true_iff] at h hc
  obtain ⟨s1, x1, y1, z1⟩ := a
  obtain ⟨s2, x2, y2, z2⟩ := b
  simp only at h hc
  rcases h with h | ⟨hse, h⟩
  · rcases hc with hc | ⟨hse', _⟩
    · rw [strLtB_asymm _ _ h] at hc
      cases hc
    · rw [hse', strLtB_irrefl] at h
      cases h
  · rcases hc with hc | ⟨_, hc⟩
    · rw [hse, strLtB_irrefl] at hc
      cases hc
    · omega

theorem sorted_pair_comm (f1 f2 : Feature) : sorted_pair f1 f2 = sorted_pair f2 f1 := by
  unfold sorted_pair
  cases h1 : ftLt f2 f1 with
  | true =>
    have h2 := ftLt_asymm _ _ h1
    simp [h2]
  | false =>
    cases h2 : ftLt f1 f2 with
    | true => simp
    | false => simp [ftLt_conn f1 f2 h2 h1]

theorem sorted_pair_sorted (f1 f2 : Feature) :
    ftLt (sorted_pair f1 f2).2 (sorted_pair f1 f2).1 = false := by
  unfold sorted_pair
  cases h : ftLt f2 f1 with
  | true => simpa using ftLt_asymm _ _ h
  | false => simpa using h

theorem processPair_comm (features : List (String × Feature)) (d : PairsDict)
    (m1 m2 : String) :
    processPair features d (m1, m2) = processPair features d (m2, m1) := by
  unfold processPair
  rcases h1 : dlookup features m1 with _ | f1 <;>
    rcases h2 : dlookup features m2 with _ | f2 <;> simp only
  rw [sorted_pair_comm]

theorem dictAdd_idem (d : PairsDict) (k : String) (p : Feature × Feature) :
    dictAdd (dictAdd d k p) k p = dictAdd d k p := by
  induction d with
  | nil => simp [dictAdd]
  | cons kv rest ih =>
    obtain ⟨k', ps⟩ := kv
    by_cases hk : k' = k
    · have hp : p ∈ (if p ∈ ps then ps else ps ++ [p]) := by
        split
        · assumption
        · simp
      simp [dictAdd, hk, hp]
    · simp [dictAdd, hk, ih]

/-- C3. Pair grouping in `write_crunch` is order-independent: processing a
member pair in either order yields the same group key and inserts the same
sorted entry (`processPair` is symmetric in the pair); the sorted pair is
non-decreasing in the tuple order (source, start, end, strand); and inserting
the same entry twice into the set leaves it unchanged. -/
theorem pair_grouping_order_independent :
    (∀ (features : List (String × Feature)) (d : PairsDict) (m1 m2 : String),
      processPair features d (m1, m2) = processPair features d (m2, m1)) ∧
    (∀ f1 f2 : Feature, sorted_pair f1 f2 = sorted_pair f2 f1) ∧
    (∀ f1 f2 : Feature, ftLt (sorted_pair f1 f2).2 (sorted_pair f1 f2).1 = false) ∧
    (∀ (d : PairsDict) (k : String) (p : Feature × Feature),
      dictAdd (dictAdd d k p) k p = dictAdd d k p) :=
  ⟨processPair_comm, sorted_pair_comm, sorted_pair_sorted, dictAdd_idem⟩

/-! ### `itertools.combinations(cluster, 2)` -/

theorem two_mul_length_combinations2 {α : Type} :
    ∀ l : List α, 2 * (combinations2 l).length = l.length * (l.length - 1) := by
  intro l
  induction l with
  | nil => rfl
  | cons x xs ih =>
    simp only [combinations2, List.length_append, List.length_map, List.length_cons]
    cases hn : xs.length with
    | zero =>
      rw [hn] at ih
      omega
    | succ m =>
      rw [hn] at ih
      have e1 : (m + 1) * (m + 1 - 1) = m * m + m := by
        rw [Nat.add_sub_cancel]
        ring
      have e2 : (m + 1 + 1) * (m + 1 + 1 - 1) = m * m + 3 * m + 2 := by
        rw [Nat.add_sub_cancel]
        ring
      rw [e1] at ih
      rw [e2]
      generalize m * m = q at ih ⊢
      omega

theorem mem_of_mem_combinations2 {α : Type} :
    ∀ (l : List α) (p : α × α), p ∈ combinations2 l → p.1 ∈ l ∧ p.2 ∈ l := by
  intro l
  induction l with
  | nil => intro p hp; simp [combinations2] at hp
  | cons x xs ih =>
    intro p hp
    simp only [combinations2, List.mem_append, List.mem_map] at hp
    rcases hp with ⟨y, hy, rfl⟩ | hp
    · exact ⟨List.mem_cons_self x xs, List.mem_cons_of_mem x hy⟩
    · obtain ⟨h1, h2⟩ := ih p hp
      exact ⟨List.mem_cons_of_mem x h1, List.mem_cons_of_mem x h2⟩

theorem combinations2_complete {α : Type} :
    ∀ (l : List α) (x y : α), x ∈ l → y ∈ l → x ≠ y →
      (x, y) ∈ combinations2 l ∨ (y, x) ∈ combinations2 l := by
  intro l
  induction l with
  | nil => intro x y hx _ _; simp at hx
  | cons a as ih =>
    intro x y hx hy hxy
    rcases List.mem_cons.mp hx with rfl | hx'
    · have hy' : y ∈ as := by
        rcases List.mem_cons.mp hy with rfl | h
        · exact absurd rfl hxy
        · exact h
      left
      simp only [combinations2, List.mem_append, List.mem_map]
      exact Or.inl ⟨y, hy', rfl⟩
    · rcases List.mem_cons.mp hy with rfl | hy'
      · right
        simp only [combinations2, List.mem_append, List.mem_map]
        exact Or.inl ⟨x, hx', rfl⟩
      · rcases ih x y hx' hy' hxy with h | h
        · left
          simp only [combinations2, List.mem_append]
          exact Or.inr h
        · right
          simp only [combinations2, List.mem_append]
          exact Or.inr h

/-- C4. `write_crunch` forms exactly the unordered 2-combinations of each
cluster: `n` members yield `n*(n-1)/2` pairs, every pair drawn from the
cluster, every two distinct members paired in one of the two orders; a
three-member cluster yields exactly 3 pairs. -/
theorem cluster_pair_enumeration :
    (∀ l : List String, (combinations2 l).length = l.length * (l.length - 1) / 2) ∧
    (∀ (l : List String) (x y : String), x ∈ l → y ∈ l → x ≠ y →
      (x, y) ∈ combinations2 l ∨ (y, x) ∈ combinations2 l) ∧
    (∀ (l : List String), ∀ p ∈ combinations2 l, p.1 ∈ l ∧ p.2 ∈ l) ∧
    (combinations2 ["a", "b", "c"]).length = 3 := by
  refine ⟨?_, combinations2_complete, mem_of_mem_combinations2, by decide⟩
  intro l
  have h := two_mul_length_combinations2 l
  generalize l.length * (l.length - 1) = q at h ⊢
  omega

/-- Closed witness for C4: the enumeration theorem applied to a concrete
three-member cluster and two of its distinct members. -/
theorem cluster_pair_enumeration_witness :
    ("a", "c") ∈ combinations2 ["a", "b", "c"] ∨
      ("c", "a") ∈ combinations2 ["a", "b", "c"] :=
  cluster_pair_enumeration.2.1 ["a", "b", "c"] "a" "c" (by decide) (by decide)
    (by decide)

/-! ### Failure semantics of `write_crunch` -/

theorem length_ge_two_of_mem_combinations2 {α : Type} :
    ∀ (l : List α) (p : α × α), p ∈ combinations2 l → 2 ≤ l.length := by
  intro l
  induction l with
  | nil => intro p hp; simp [combinations2] at hp
  | cons x xs ih =>
    intro p hp
    simp only [combinations2, List.mem_append, List.mem_map] at hp
    rcases hp with ⟨y, hy, _⟩ | hp
    · have : 0 < xs.length := List.length_pos.mpr (List.ne_nil_of_mem hy)
      simp only [List.length_cons]
      omega
    · have := ih p hp
      simp only [List.length_cons]
      omega

theorem mem_pair_combinations2 {α : Type} :
    ∀ (l : List α) (m : α), 2 ≤ l.length → m ∈ l →
      ∃ p ∈ combinations2 l, p.1 = m ∨ p.2 = m := by
  intro l
  induction l with
  | nil => intro m h _; simp at h
  | cons x xs ih =>
    intro m hlen hm
    rcases List.mem_cons.mp hm with rfl | hm'
    · rcases xs with _ | ⟨y, ys⟩
      · simp at hlen
      · exact ⟨(m, y), by simp [combinations2], Or.inl rfl⟩
    · by_cases h2 : 2 ≤ xs.length
      · obtain ⟨p, hp, hpm⟩ := ih m h2 hm'
        refine ⟨p, ?_, hpm⟩
        simp only [combinations2, List.mem_append]
        exact Or.inr hp
      · rcases xs with _ | ⟨y, ys⟩
        · simp at hm'
        · rcases ys with _ | ⟨z, zs⟩
          · have hme : m = y := by simpa using hm'
            subst hme
            exact ⟨(x, m), by simp [combinations2], Or.inr rfl⟩
          · exfalso
            simp only [List.length_cons] at h2
            omega

theorem processPair_isSome (features : List (String × Feature)) (d : PairsDict)
    (p : String × String) :
    (processPair features d p).isSome =
      ((dlookup features p.1).isSome && (dlookup features p.2).isSome) := by
  unfold processPair
  rcases h1 : dlookup features p.1 with _ | f1 <;>
    rcases h2 : dlookup features p.2 with _ | f2 <;> rfl

theorem foldMO_isSome_iff {σ α : Type} (f : σ → α → Option σ) (ok : α → Prop)
    (h : ∀ d a, (f d a).isSome = true ↔ ok a) :
    ∀ (l : List α) (d : σ), (foldMO f d l).isSome = true ↔ ∀ a ∈ l, ok a := by
  intro l
  induction l with
  | nil => intro d; simp [foldMO]
  | cons a as ih =>
    intro d
    rcases hfa : f d a with _ | d'
    · have hok : ¬ ok a := by
        rw [← h d a, hfa]
        simp
      simp [foldMO, hfa, List.forall_mem_cons, hok]
    · have hok : ok a := by
        rw [← h d a, hfa]
        rfl
      simp [foldMO, hfa, List.forall_mem_cons, hok, ih d']

/-- C5. `write_crunch` completes without a key-lookup error exactly when
every member of every cluster with at least two members resolves in the
feature mapping; one absent identifier in a processed pair aborts the run
(result `none`). -/
theorem write_crunch_resolves_iff (clusters : List (List String))
    (features : List (String × Feature)) :
    (write_crunch clusters features).isSome = true ↔
      ∀ c ∈ clusters, 2 ≤ c.length → ∀ m ∈ c, (dlookup features m).isSome = true := by
  have hpp : ∀ (d : PairsDict) (p : String × String),
      (processPair features d p).isSome = true ↔
        ((dlookup features p.1).isSome = true ∧ (dlookup features p.2).isSome = true) := by
    intro d p
    rw [processPair_isSome]
    simp
  have hinner := foldMO_isSome_iff (processPair features)
    (fun p => (dlookup features p.1).isSome = true ∧ (dlookup features p.2).isSome = true)
    hpp
  have houter := foldMO_isSome_iff
    (fun d cluster => foldMO (processPair features) d (combinations2 cluster))
    (fun c => ∀ p ∈ combinations2 c,
      (dlookup features p.1).isSome = true ∧ (dlookup features p.2).isSome = true)
    (fun d c => hinner (combinations2 c) d) clusters []
  have hwc : (write_crunch clusters features).isSome =
      (foldMO (fun d cluster => foldMO (processPair features) d (combinations2 cluster))
        [] clusters).isSome := by
    unfold write_crunch
    cases foldMO (fun d cluster => foldMO (processPair features) d (combinations2 cluster))
        [] clusters with
    | none => rfl
    | some d => rfl
  rw [hwc, houter]
  constructor
  · intro h c hc hlen m hm
    obtain ⟨p, hp, hpm⟩ := mem_pair_combinations2 c m hlen hm
    have := h c hc p hp
    rcases hpm with hpm | hpm
    · exact hpm ▸ this.1
    · exact hpm ▸ this.2
  · intro h c hc p hp
    obtain ⟨h1, h2⟩ := mem_of_mem_combinations2 c p hp
    have hlen := length_ge_two_of_mem_combinations2 c p hp
    exact ⟨h c hc hlen p.1 h1, h c hc hlen p.2 h2⟩

/-- Closed witness for C5: a run whose only multi-member cluster fully
resolves succeeds even though the member of the singleton cluster is absent. -/
theorem write_crunch_resolves_iff_witness :
    (write_crunch [["a", "b"], ["c"]]
      [("a", ("s", 0, 1, 1)), ("b", ("t", 2, 3, 1))]).isSome = true :=
  (write_crunch_resolves_iff [["a", "b"], ["c"]]
    [("a", ("s", 0, 1, 1)), ("b", ("t", 2, 3, 1))]).mpr (by decide)

example : read_mcl ["a|b|c|\tx|y|z|", "", "p|q|"] = some [["c", "z"], ["q"]] := by decide

example :
    write_crunch (filter_singletons [["id1", "id2"], ["id3"]])
      [("id1", ("orgA", 0, 10, 1)), ("id2", ("orgB", 5, 15, 1))] =
    some [("orgA_vs_orgB.crunch", ["100 100 0 10 orgA 5 15 orgB\n"])] := by decide

/-! ### `read_genbank`: feature dictionary, last assignment wins -/

theorem dlookup_ftInsert_self (d : List (String × Feature)) (k : String) (v : Feature) :
    dlookup (ftInsert d k v) k = some v := by
  induction d with
  | nil => simp [ftInsert, dlookup]
  | cons kv rest ih =>
    obtain ⟨k', v'⟩ := kv
    by_cases hk : k' = k
    · simp [ftInsert, hk, dlookup]
    · simp [ftInsert, hk, dlookup, ih]

theorem dlookup_ftInsert_ne (d : List (String × Feature)) (k q : String) (v : Feature)
    (h : k ≠ q) : dlookup (ftInsert d k v) q = dlookup d q := by
  induction d with
  | nil => simp [ftInsert, dlookup, h]
  | cons kv rest ih =>
    obtain ⟨k', v'⟩ := kv
    by_cases hk : k' = k
    · subst hk
      simp [ftInsert, dlookup, h]
    · simp [ftInsert, hk, dlookup, ih]

theorem dlookup_procRecord (r : GBRecord) (d : List (String × Feature)) (p : String) :
    dlookup (procRecord d r) p =
      match lastCDS p r.features with
      | some ft => some (record_name r, ft.fstart, ft.fend, ft.strand)
      | none => dlookup d p := by
  unfold procRecord lastCDS
  generalize r.features.filter (fun f => f.ftype = "CDS") = fts
  induction fts generalizing d with
  | nil => rfl
  | cons f fs ih =>
    simp only [List.foldl_cons]
    rw [ih]
    rcases hl : lastWith p fs with _ | g
    · simp only [lastWith, hl]
      by_cases hp : f.protein_id = p
      · simp [hp, dlookup_ftInsert_self]
      · simp [hp, dlookup_ftInsert_ne d f.protein_id p _ hp]
    · simp [lastWith, hl]

theorem dlookup_foldl_procRecord (p : String) :
    ∀ (rs : List GBRecord) (d : List (String × Feature)),
      dlookup (rs.foldl procRecord d) p =
        match lastEntry p rs with
        | some e => some (record_name e.1, e.2.fstart, e.2.fend, e.2.strand)
        | none => dlookup d p := by
  intro rs
  induction rs with
  | nil => intro d; rfl
  | cons r rs ih =>
    intro d
    simp only [List.foldl_cons]
    rw [ih]
    rcases hl : lastEntry p rs with _ | e
    · simp only [lastEntry, hl]
      rw [dlookup_procRecord]
      rcases hc : lastCDS p r.features with _ | ft <;> simp only [hc]
    · simp only [lastEntry, hl]

/-- C7. For every input record list and every protein id, the `read_genbank`
dictionary binds the id exactly when some record carries it on a CDS feature,
and then to exactly `(source_name, start, end, strand)` of the last CDS with
that id in the last file containing one — the record name reconstructed as
`gi|<gi>|ref|<record id>` — so later files silently overwrite earlier ones
and entries from earlier files otherwise persist, with no conflict
detection. -/
theorem read_genbank_cds_mapping :
    ∀ (rs : List GBRecord) (p : String),
      dlookup (read_genbank rs) p =
        match lastEntry p rs with
        | some e =>
          some ("gi|" ++ e.1.gi ++ "|ref|" ++ e.1.rid, e.2.fstart, e.2.fend, e.2.strand)
        | none => none := by
  intro rs p
  unfold read_genbank
  rw [dlookup_foldl_procRecord]
  rcases hl : lastEntry p rs with _ | e <;> simp only [hl] <;> rfl

/-- Closed witness for C7 at a concrete two-file run: the id bound in both
files resolves to the last CDS of the second file, while the id bound only in
the first file persists untouched. -/
theorem read_genbank_cds_mapping_witness :
    dlookup
      (read_genbank
        [⟨"11111", "NC_000001.1", [⟨"CDS", "p1", 0, 3, 1⟩, ⟨"CDS", "q7", 2, 5, 1⟩]⟩,
         ⟨"49175990", "NC_000913.3",
          [⟨"CDS", "p1", 0, 9, 1⟩, ⟨"gene", "p1", 4, 6, 1⟩, ⟨"CDS", "p1", 10, 20, -1⟩]⟩])
      "p1" = some ("gi|49175990|ref|NC_000913.3", 10, 20, -1) ∧
    dlookup
      (read_genbank
        [⟨"11111", "NC_000001.1", [⟨"CDS", "p1", 0, 3, 1⟩, ⟨"CDS", "q7", 2, 5, 1⟩]⟩,
         ⟨"49175990", "NC_000913.3",
          [⟨"CDS", "p1", 0, 9, 1⟩, ⟨"gene", "p1", 4, 6, 1⟩, ⟨"CDS", "p1", 10, 20, -1⟩]⟩])
      "q7" = some ("gi|11111|ref|NC_000001.1", 2, 5, 1) :=
  ⟨(read_genbank_cds_mapping
      [⟨"11111", "NC_000001.1", [⟨"CDS", "p1", 0, 3, 1⟩, ⟨"CDS", "q7", 2, 5, 1⟩]⟩,
       ⟨"49175990", "NC_000913.3",
        [⟨"CDS", "p1", 0, 9, 1⟩, ⟨"gene", "p1", 4, 6, 1⟩, ⟨"CDS", "p1", 10, 20, -1⟩]⟩]
      "p1").trans (by decide),
   (read_genbank_cds_mapping
      [⟨"11111", "NC_000001.1", [⟨"CDS", "p1", 0, 3, 1⟩, ⟨"CDS", "q7", 2, 5, 1⟩]⟩,
       ⟨"49175990", "NC_000913.3",
        [⟨"CDS", "p1", 0, 9, 1⟩, ⟨"gene", "p1", 4, 6, 1⟩, ⟨"CDS", "p1", 10, 20, -1⟩]⟩]
      "q7").trans (by decide)⟩

/-! ### Intra-organism pairs and non-empty output files -/

theorem processPair_lookups (features : List (String × Feature)) (d : PairsDict)
    (m1 m2 : String) (f1 f2 : Feature) (h1 : dlookup features m1 = some f1)
    (h2 : dlookup features m2 = some f2) :
    processPair features d (m1, m2) =
      some (dictAdd d
        (split_seqid_w (sorted_pair f1 f2).1.1 ++ "_vs_" ++
          split_seqid_w (sorted_pair f1 f2).2.1)
        (sorted_pair f1 f2)) := by
  unfold processPair
  rw [show dlookup features (m1, m2).1 = some f1 from h1,
      show dlookup features (m1, m2).2 = some f2 from h2]

theorem processPair_self_key (features : List (String × Feature)) (d : PairsDict)
    (m1 m2 : String) (f1 f2 : Feature) (h1 : dlookup features m1 = some f1)
    (h2 : dlookup features m2 = some f2)
    (hX : split_seqid_w f1.1 = split_seqid_w f2.1) :
    processPair features d (m1, m2) =
      some (dictAdd d (split_seqid_w f1.1 ++ "_vs_" ++ split_seqid_w f1.1)
        (sorted_pair f1 f2)) := by
  rw [processPair_lookups features d m1 m2 f1 f2 h1 h2]
  have hkey : split_seqid_w (sorted_pair f1 f2).1.1 = split_seqid_w f1.1 ∧
      split_seqid_w (sorted_pair f1 f2).2.1 = split_seqid_w f1.1 := by
    unfold sorted_pair
    cases hlt : ftLt f2 f1 with
    | true => exact ⟨by simpa using hX.symm, by simp⟩
    | false => exact ⟨by simp, by simpa using hX.symm⟩
  rw [hkey.1, hkey.2]

theorem dictAdd_values_ne_nil (d : PairsDict) (k : String) (p : Feature × Feature)
    (h : ∀ kv ∈ d, kv.2 ≠ []) : ∀ kv ∈ dictAdd d k p, kv.2 ≠ [] := by
  induction d with
  | nil =>
    intro kv hkv
    simp only [dictAdd, List.mem_singleton] at hkv
    subst hkv
    simp
  | cons kv0 rest ih =>
    obtain ⟨k', ps⟩ := kv0
    intro kv hkv
    by_cases hk : k' = k
    · simp only [dictAdd, hk, if_true] at hkv
      rcases List.mem_cons.mp hkv with rfl | hkv'
      · have hps : ps ≠ [] := h (k', ps) (List.mem_cons_self _ _)
        split
        · exact hps
        · simp
      · exact h kv (List.mem_cons_of_mem _ hkv')
    · simp only [dictAdd, hk, if_false] at hkv
      rcases List.mem_cons.mp hkv with rfl | hkv'
      · exact h (k', ps) (List.mem_cons_self _ _)
      · exact ih (fun kv h' => h kv (List.mem_cons_of_mem _ h')) kv hkv'

theorem foldMO_preserve {σ α : Type} (f : σ → α → Option σ) (inv : σ → Prop)
    (hstep : ∀ d a d', inv d → f d a = some d' → inv d') :
    ∀ (l : List α) (d e : σ), inv d → foldMO f d l = some e → inv e := by
  intro l
  induction l with
  | nil =>
    intro d e hd he
    simp only [foldMO, Option.some.injEq] at he
    exact he ▸ hd
  | cons a as ih =>
    intro d e hd he
    simp only [foldMO] at he
    rcases hfa : f d a with _ | d'
    · rw [hfa] at he
      cases he
    · rw [hfa] at he
      exact ih d' e (hstep d a d' hd hfa) he

theorem processPair_preserves_ne_nil (features : List (String × Feature))
    (d : PairsDict) (pair : String × String) (d' : PairsDict)
    (hd : ∀ kv ∈ d, kv.2 ≠ []) (h : processPair features d pair = some d') :
    ∀ kv ∈ d', kv.2 ≠ [] := by
  unfold processPair at h
  rcases h1 : dlookup features pair.1 with _ | f1
  · rw [h1] at h
    cases h
  · rcases h2 : dlookup features pair.2 with _ | f2
    · rw [h1, h2] at h
      cases h
    · rw [h1, h2] at h
      simp only [Option.some.injEq] at h
      exact h ▸ dictAdd_values_ne_nil d _ _ hd

theorem write_crunch_file_lines (clusters : List (List String))
    (features : List (String × Feature)) (out : List (String × List String))
    (h : write_crunch clusters features = some out) : ∀ fl ∈ out, fl.2 ≠ [] := by
  unfold write_crunch at h
  rcases hf : foldMO
      (fun d cluster => foldMO (processPair features) d (combinations2 cluster))
      [] clusters with _ | d
  · rw [hf] at h
    cases h
  · rw [hf] at h
    simp only [Option.some.injEq] at h
    subst h
    have hinv : ∀ kv ∈ d, kv.2 ≠ [] := by
      refine foldMO_preserve _ (fun d => ∀ kv ∈ d, kv.2 ≠ []) ?_ clusters [] d
        (by simp) hf
      intro d0 c d1 hd0 hstep
      exact foldMO_preserve _ (fun d => ∀ kv ∈ d, kv.2 ≠ [])
        (fun da pa da' hda hpa =>
          processPair_preserves_ne_nil features da pa da' hda hpa)
        (combinations2 c) d0 d1 hd0 hstep
    intro fl hfl
    simp only [List.mem_map] at hfl
    obtain ⟨kv, hkv, rfl⟩ := hfl
    simpa using hinv kv hkv

/-- C10. Intra-organism pairs are not excluded: two members resolving to
features of the same organism are stored under the self-comparison key
`X_vs_X`; and every written `.crunch` file holds at least one line, a group
key existing only once a first pair was inserted for it. -/
theorem intra_organism_pairs_and_nonempty_files :
    (∀ (features : List (String × Feature)) (d : PairsDict) (m1 m2 : String)
        (f1 f2 : Feature),
      dlookup features m1 = some f1 → dlookup features m2 = some f2 →
      split_seqid_w f1.1 = split_seqid_w f2.1 →
      processPair features d (m1, m2) =
        some (dictAdd d (split_seqid_w f1.1 ++ "_vs_" ++ split_seqid_w f1.1)
          (sorted_pair f1 f2))) ∧
    (∀ (clusters : List (List String)) (features : List (String × Feature))
        (out : List (String × List String)),
      write_crunch clusters features = some out → ∀ fl ∈ out, fl.2 ≠ []) :=
  ⟨processPair_self_key, write_crunch_file_lines⟩

/-- Closed witness for C10: two same-organism features grouped under
`orgA_vs_orgA`, and the non-empty line list of the concrete self-comparison
file written for them. -/
theorem intra_organism_witness :
    processPair [("a", ("orgA", 0, 1, 1)), ("b", ("orgA", 5, 9, 1))] [] ("a", "b") =
      some (dictAdd [] (split_seqid_w "orgA" ++ "_vs_" ++ split_seqid_w "orgA")
        (sorted_pair ("orgA", 0, 1, 1) ("orgA", 5, 9, 1))) ∧
    (["100 100 0 1 orgA 5 9 orgA\n"] : List String) ≠ [] :=
  ⟨intra_organism_pairs_and_nonempty_files.1
      [("a", ("orgA", 0, 1, 1)), ("b", ("orgA", 5, 9, 1))] [] "a" "b"
      ("orgA", 0, 1, 1) ("orgA", 5, 9, 1) (by decide) (by decide) rfl,
   intra_organism_pairs_and_nonempty_files.2 [["a", "b"]]
      [("a", ("orgA", 0, 1, 1)), ("b", ("orgA", 5, 9, 1))]
      [("orgA_vs_orgA.crunch", ["100 100 0 1 orgA 5 9 orgA\n"])] (by decide)
      ("orgA_vs_orgA.crunch", ["100 100 0 1 orgA 5 9 orgA\n"]) (by decide)⟩

/-! ### Crunch line format and the end-to-end scenario -/

/-- C2. Each stored pair yields one space-separated, newline-terminated line
of exactly eight fields: literal score `"100"`, literal identity `"100"`,
feature-1 start, end, source name, feature-2 start, end, source name — with a
feature's start and end swapped exactly when its strand is negative, so
strand `-1` with `(start, end) = (5, 20)` renders as `20 5`. -/
theorem crunch_line_eight_fields :
    (∀ ft1 ft2 : Feature,
      (crunchFields ft1 ft2).length = 8 ∧
      crunchLine ft1 ft2 = joinSpace (crunchFields ft1 ft2) ++ "\n" ∧
      (crunchFields ft1 ft2)[0]? = some "100" ∧
      (crunchFields ft1 ft2)[1]? = some "100" ∧
      (crunchFields ft1 ft2)[4]? = some ft1.1 ∧
      (crunchFields ft1 ft2)[7]? = some ft2.1) ∧
    (∀ ft : Feature, ft.2.2.2 < 0 →
      coordFields ft = [toString ft.2.2.1, toString ft.2.1]) ∧
    (∀ ft : Feature, 0 ≤ ft.2.2.2 →
      coordFields ft = [toString ft.2.1, toString ft.2.2.1]) ∧
    coordFields ("s", 5, 20, -1) = ["20", "5"] ∧
    crunchLine ("s", 5, 20, -1) ("t", 1, 2, 1) = "100 100 20 5 s 1 2 t\n" := by
  refine ⟨?_, ?_, ?_, by decide, by decide⟩
  · intro ft1 ft2
    refine ⟨by simp [crunchFields, coordFields], rfl, ?_, ?_, ?_, ?_⟩ <;>
      simp [crunchFields, coordFields]
  · intro ft h
    simp [coordFields, h]
  · intro ft h
    simp [coordFields, show ¬ ft.2.2.2 < 0 from not_lt.mpr h]

/-- Closed witness for C2: the coordinate-swap clauses applied at a negative
and a positive strand feature with `(start, end) = (5, 20)`. -/
theorem crunch_line_eight_fields_witness :
    coordFields ("u", 5, 20, -1) = [toString (20 : Int), toString (5 : Int)] ∧
    coordFields ("u", 5, 20, 1) = [toString (5 : Int), toString (20 : Int)] :=
  ⟨crunch_line_eight_fields.2.1 ("u", 5, 20, -1) (by decide),
   crunch_line_eight_fields.2.2.1 ("u", 5, 20, 1) (by decide)⟩

/-- C1. End-to-end: on the cluster file `["id1\tid2", "id3"]` with the feature
map `{id1 ↦ (orgA,0,10,1), id2 ↦ (orgB,5,15,1)}`, the singleton filter keeps
only the first cluster and `write_crunch` emits exactly one file
`orgA_vs_orgB.crunch` whose single line is `100 100 0 10 orgA 5 15 orgB`; the
singleton cluster `id3` contributes nothing. -/
theorem end_to_end_two_clusters :
    filter_singletons [["id1", "id2"], ["id3"]] = [["id1", "id2"]] ∧
    pysplit_ws (pystrip "id1\tid2".data) = ["id1", "id2"] ∧
    write_crunch (filter_singletons [["id1", "id2"], ["id3"]])
      [("id1", ("orgA", 0, 10, 1)), ("id2", ("orgB", 5, 15, 1))] =
      some [("orgA_vs_orgB.crunch", ["100 100 0 10 orgA 5 15 orgB\n"])] := by
  refine ⟨by decide, by decide, by decide⟩
